import Mathlib

/-!
Verification of the `marianocabezas/trees` repository (files `models.py` and
`tree_detection.py`) against its natural-language specification.

The Python code is shallowly embedded:
* pure shape arithmetic of the network layers becomes `Nat` arithmetic with
  explicit validity guards (`Option`), mirroring the run-time errors PyTorch
  raises on invalid shapes;
* Python list slicing (`l[:-1]`, `l[-2::-1]`, `l[:0:-1]`, `l[:i] + l[i+1:]`)
  becomes the corresponding `List` operations;
* fallible Python operations (indexing a tuple out of range, `int + list`,
  calling a function with an unexpected keyword argument) become `Except` /
  membership checks that reproduce the exception the interpreter raises;
* floating point pixel values become `ℚ`; the float square root inside
  `np.std` is kept as an explicit function parameter, since no claim depends
  on its numeric value;
* the randomness of `F.dropout2d` becomes an explicit stream of Boolean
  channel masks (each mask bit stands for one Bernoulli(1-p) draw).
-/

namespace Trees

/-! ### Python built-ins -/

/-- Python `range(0, stop, step)` for a positive `step`: the multiples of
`step` that are `< stop`. -/
def pyRange0 (stop step : Nat) : List Nat :=
  (List.range ((stop + step - 1) / step)).map (· * step)

/-- A tiny fragment of Python values, enough to evaluate the `+` expression
in `tree_detection.py` line 253: integers and lists of integers. -/
inductive PyVal where
  | int : Nat → PyVal
  | list : List Nat → PyVal
  deriving DecidableEq, Repr

/-- Python `+`: `int + int` adds, `list + list` concatenates, and mixing the
two raises `TypeError`. -/
def pyAdd : PyVal → PyVal → Except String PyVal
  | .int a, .int b => .ok (.int (a + b))
  | .list a, .list b => .ok (.list (a ++ b))
  | _, _ => .error "TypeError: unsupported operand type(s) for +"

/-! ### `models.py`, `Autoencoder2D.__init__` (lines 29-63)

The constructor only fixes the `(f_in, f_out)` channel pair of every block,
so that is what the embedding records. -/

/-- Down-path channel pairs: `zip([n_inputs] + conv_filters[:-2],
conv_filters[:-1])` (lines 36-38). -/
def downPairs (n_inputs : Nat) (conv_filters : List Nat) : List (Nat × Nat) :=
  List.zip (n_inputs :: conv_filters.dropLast.dropLast) conv_filters.dropLast

/-- Bottleneck channel pair: `conv_filters[-2] → conv_filters[-1]`
(lines 41-47). -/
def uPair (conv_filters : List Nat) : Nat × Nat :=
  (conv_filters.getD (conv_filters.length - 2) 0,
   conv_filters.getD (conv_filters.length - 1) 0)

/-- `down_out = conv_filters[-2::-1]` (line 50): the down-path output widths
reversed. -/
def down_out (conv_filters : List Nat) : List Nat :=
  conv_filters.dropLast.reverse

/-- `up_out = conv_filters[:0:-1]` (line 51). -/
def up_out (conv_filters : List Nat) : List Nat :=
  (conv_filters.drop 1).reverse

/-- `deconv_in = map(sum, zip(down_out, up_out))` (line 52). -/
def deconv_in (conv_filters : List Nat) : List Nat :=
  List.zipWith (· + ·) (down_out conv_filters) (up_out conv_filters)

/-- Up-path channel pairs: `zip(deconv_in, down_out)` (lines 53-63). -/
def upPairs (conv_filters : List Nat) : List (Nat × Nat) :=
  List.zip (deconv_in conv_filters) (down_out conv_filters)

/-- Chained channel pairs: `chainPairs a [b, c, ...] = [(a,b), (b,c), ...]`.
Recursive characterisation of `downPairs`, used for induction. -/
def chainPairs (a : Nat) : List Nat → List (Nat × Nat)
  | [] => []
  | b :: t => (a, b) :: chainPairs b t

theorem zip_cons_dropLast (a : Nat) (l : List Nat) :
    List.zip (a :: l.dropLast) l = chainPairs a l := by
  induction l generalizing a with
  | nil => rfl
  | cons b t ih =>
    cases t with
    | nil => rfl
    | cons c t' =>
      simp only [List.dropLast_cons₂, List.zip_cons_cons, chainPairs]
      exact congrArg _ (ih b)

theorem downPairs_eq_chain (n_inputs : Nat) (cf : List Nat) :
    downPairs n_inputs cf = chainPairs n_inputs cf.dropLast :=
  zip_cons_dropLast n_inputs cf.dropLast

/-- Reversing and dropping the last element commute with dropping the head:
`l.reverse.dropLast = (l.drop 1).reverse`. -/
theorem dropLast_reverse_eq (l : List Nat) :
    l.reverse.dropLast = (l.drop 1).reverse := by
  cases l with
  | nil => rfl
  | cons a t => simp [List.reverse_cons]

/-! ### `models.py`, shape semantics of the forward passes

`TShape` is the shape `(N, C, H, W)` of a 4-D tensor.  Each layer becomes a
partial shape transformer (`Option TShape`), `none` standing for the
run-time error PyTorch raises when the shapes are invalid. -/

/-- Shape `(n, c, h, w)` of a batched 2-D feature map. -/
structure TShape where
  n : Nat
  c : Nat
  h : Nat
  w : Nat
  deriving DecidableEq, Repr

/-- Shape of `nn.Conv2d(f_in, f_out, k, padding=k//2)` followed by `ReLU`
(a down-path Convolutional Block, stride 1): requires the channel count to
match and the padded extent to reach the kernel; the spatial extent becomes
`h + 2*(k/2) - k + 1`. -/
def convBlockSh (f_in f_out k : Nat) (s : TShape) : Option TShape :=
  if s.c = f_in ∧ k ≤ s.h + 2 * (k / 2) ∧ k ≤ s.w + 2 * (k / 2) then
    some ⟨s.n, f_out, s.h + 2 * (k / 2) + 1 - k, s.w + 2 * (k / 2) + 1 - k⟩
  else none

/-- Shape of `nn.ConvTranspose2d(f_in, f_out, k, padding=k//2)` followed by
`ReLU` (an up-path block, stride 1): the spatial extent becomes
`(h - 1) - 2*(k/2) + k`, which must stay positive. -/
def convTBlockSh (f_in f_out k : Nat) (s : TShape) : Option TShape :=
  if s.c = f_in ∧ 2 * (k / 2) + 2 ≤ s.h + k ∧ 2 * (k / 2) + 2 ≤ s.w + k then
    some ⟨s.n, f_out, s.h + k - (2 * (k / 2) + 1), s.w + k - (2 * (k / 2) + 1)⟩
  else none

/-- Shape of `F.max_pool2d(x, 2)` (kernel 2, stride 2, no padding): each
spatial extent must be at least 2 (PyTorch raises "Output size is too
small" otherwise) and becomes `(h - 2)/2 + 1`. -/
def maxPool2dSh (s : TShape) : Option TShape :=
  if 2 ≤ s.h ∧ 2 ≤ s.w then
    some ⟨s.n, s.c, (s.h - 2) / 2 + 1, (s.w - 2) / 2 + 1⟩
  else none

/-- Shape of `F.interpolate(x, size=(h', w'))`: resamples the spatial axes to
the requested size; all extents must be positive. -/
def interpolateSh (s : TShape) (hw : Nat × Nat) : Option TShape :=
  if 1 ≤ s.h ∧ 1 ≤ s.w ∧ 1 ≤ hw.1 ∧ 1 ≤ hw.2 then
    some ⟨s.n, s.c, hw.1, hw.2⟩
  else none

/-- Shape of `torch.cat((a, b), dim=1)`: batch and spatial extents must
agree, channel counts add. -/
def catChSh (a b : TShape) : Option TShape :=
  if a.n = b.n ∧ a.h = b.h ∧ a.w = b.w then
    some ⟨a.n, a.c + b.c, a.h, a.w⟩
  else none

/-- Down-path loop of `Autoencoder2D.forward` (lines 66-74) at the shape
level: one Convolutional Block per channel pair, recording each pre-pooling
output shape as a skip buffer, pooling afterwards when `pooling` is set.
`F.dropout2d` preserves shape, so it does not appear here. -/
def downLoopSh (k : Nat) (pooling : Bool) :
    List (Nat × Nat) → TShape → Option (List TShape × TShape)
  | [], s => some ([], s)
  | (f_in, f_out) :: rest, s => do
    let s1 ← convBlockSh f_in f_out k s
    let s2 ← if pooling then maxPool2dSh s1 else some s1
    let (skips, sf) ← downLoopSh k pooling rest s2
    pure (s1 :: skips, sf)

/-- Up-path loop of `Autoencoder2D.forward` (lines 79-97) at the shape
level: the loop runs over `zip(self.up, down_inputs[::-1])`, so it truncates
at the shorter list.  With pooling, the upstream input is first resampled to
the skip buffer's spatial size; the two are then channel-concatenated and
fed to the transpose block. -/
def upLoopSh (k : Nat) (pooling : Bool) :
    List (Nat × Nat) → List TShape → TShape → Option TShape
  | [], _, s => some s
  | _ :: _, [], s => some s
  | (f_in, f_out) :: rest, skip :: skips, s => do
    let s1 ←
      if pooling then do
        let si ← interpolateSh s (skip.h, skip.w)
        let sc ← catChSh si skip
        convTBlockSh f_in f_out k sc
      else do
        let sc ← catChSh s skip
        convTBlockSh f_in f_out k sc
    upLoopSh k pooling rest skips s1

/-- `Autoencoder2D.forward` (lines 65-99) at the shape level: down path,
bottleneck block `self.u`, then up path over the reversed skip buffers. -/
def aeForwardSh (conv_filters : List Nat) (n_inputs k : Nat) (pooling : Bool)
    (s : TShape) : Option TShape := do
  let (skips, s1) ← downLoopSh k pooling (downPairs n_inputs conv_filters) s
  let s2 ← convBlockSh (uPair conv_filters).1 (uPair conv_filters).2 k s1
  upLoopSh k pooling (upPairs conv_filters) skips.reverse s2

/-- Segmentation head `self.seg` of `Unet2D` (lines 121-126) at the shape
level: `Conv2d(c0, c0, 1)`, `ReLU`, `BatchNorm2d` (shape preserving),
`Conv2d(c0, n_outputs, 1)`. -/
def segSh (c0 n_outputs : Nat) (s : TShape) : Option TShape := do
  let s1 ← convBlockSh c0 c0 1 s
  convBlockSh c0 n_outputs 1 s1

/-- `Unet2D.forward` (lines 161-165) at the shape level: the autoencoder
(constructed with kernel size 3, the `Autoencoder2D` default), the
segmentation head on `conv_filters[0]` channels, and the channel softmax
(shape preserving).  The `pooling` flag is kept as a parameter so that both
settings of the autoencoder can be stated; `Unet2D.__init__` itself always
leaves it at its default `False`. -/
def unetForwardSh (conv_filters : List Nat) (n_inputs n_outputs : Nat)
    (pooling : Bool) (s : TShape) : Option TShape := do
  let s1 ← aeForwardSh conv_filters n_inputs 3 pooling s
  segSh (conv_filters.headD 0) n_outputs s1

/-! ### `models.py`, value semantics of `Autoencoder2D.forward` with dropout

Pixel values are `ℚ`.  `Img` is one sample as a list of channels, each a
flattened list of values (that is all `F.dropout2d` and `torch.cat(dim=1)`
need).  The learned weights of the convolution blocks make each block a
fixed deterministic function `Img → Img`, so the blocks are parameters of
the embedding.  The randomness of `F.dropout2d` is an explicit list of
Boolean channel masks: bit `true` means the Bernoulli(1-p) draw kept the
channel. -/

/-- One sample: channels, each a flattened list of pixel values. -/
abbrev Img := List (List ℚ)

/-- Value semantics of `F.dropout2d(x, p, training)`: in training mode with
`p > 0`, each whole channel is either scaled by `1/(1-p)` (draw `true`) or
zeroed (draw `false`); otherwise (evaluation mode, or `p = 0`, where every
Bernoulli(1) draw keeps) it is the identity. -/
def dropout2dV (p : ℚ) (training : Bool) (mask : List Bool) (x : Img) : Img :=
  if training ∧ 0 < p then
    List.zipWith
      (fun ch keep =>
        if keep then ch.map (· * (1 - p)⁻¹) else ch.map (fun _ => 0))
      x mask
  else x

/-- Down-path loop of `Autoencoder2D.forward` (lines 66-74) on values:
`input_s = F.dropout2d(c(input_s), dropout, training)` is recorded as the
skip buffer, then pooled when `pooling` is set.  The mask list is consumed
one entry per dropout call; the unconsumed tail is returned. -/
def downLoopV (pool : Img → Img) (pooling : Bool) (p : ℚ) (training : Bool) :
    List (Img → Img) → List (List Bool) → Img →
    (List Img × List (List Bool) × Img)
  | [], ms, x => ([], ms, x)
  | c :: rest, ms, x =>
    let x1 := dropout2dV p training (ms.headD []) (c x)
    let x2 := if pooling then pool x1 else x1
    let r := downLoopV pool pooling p training rest (ms.drop 1) x2
    (x1 :: r.1, r.2.1, r.2.2)

/-- Up-path loop of `Autoencoder2D.forward` (lines 79-97) on values: for
each transpose block and reversed skip buffer, concatenate on the channel
axis (`torch.cat(dim=1)` is list append of channels), resampling first when
`pooling` is set, then apply the block and dropout. -/
def upLoopV (interpTo : Img → Img → Img) (pooling : Bool) (p : ℚ)
    (training : Bool) :
    List (Img → Img) → List Img → List (List Bool) → Img → Img
  | [], _, _, x => x
  | _ :: _, [], _, x => x
  | d :: rest, skip :: skips, ms, x =>
    let xc := if pooling then interpTo x skip ++ skip else x ++ skip
    let x1 := dropout2dV p training (ms.headD []) (d xc)
    upLoopV interpTo pooling p training rest skips (ms.drop 1) x1

/-- `Autoencoder2D.forward` (lines 65-99) on values: down path, bottleneck
`self.u` with its own dropout, then up path over the reversed skips. -/
def aeForwardV (downs : List (Img → Img)) (u : Img → Img)
    (ups : List (Img → Img)) (pool : Img → Img) (interpTo : Img → Img → Img)
    (pooling : Bool) (p : ℚ) (training : Bool) (ms : List (List Bool))
    (x : Img) : Img :=
  let r := downLoopV pool pooling p training downs ms x
  let xu := dropout2dV p training (r.2.1.headD []) (u r.2.2)
  upLoopV interpTo pooling p training ups r.1.reverse (r.2.1.drop 1) xu

/-! ### `models.py`, `Unet2D.__init__` and `dropout_update` (117-119, 167-169) -/

/-- Configuration record built by `Autoencoder2D.__init__`: the fields of
`self` that govern the forward pass. -/
structure AutoencoderCfg where
  conv_filters : List Nat
  n_inputs : Nat
  kernel_size : Nat
  pooling : Bool
  dropout : ℚ
  deriving DecidableEq, Repr

/-- `Autoencoder2D.__init__(conv_filters, device, n_inputs, kernel_size=3,
pooling=False, dropout=0)` (lines 12-27), with the Python default
arguments. -/
def autoencoder2DInit (conv_filters : List Nat) (n_inputs : Nat)
    (kernel_size : Nat := 3) (pooling : Bool := false) (dropout : ℚ := 0) :
    AutoencoderCfg :=
  ⟨conv_filters, n_inputs, kernel_size, pooling, dropout⟩

/-- The part of a `Unet2D` instance the dropout claims are about: the nested
autoencoder configuration and the model's own dropout scalar (a `BaseModel`
attribute). -/
structure Unet2DState where
  autoencoder : AutoencoderCfg
  dropout : ℚ
  deriving DecidableEq, Repr

/-- `Unet2D.__init__` (lines 117-119) builds
`Autoencoder2D(conv_filters, device, n_inputs)` with only three positional
arguments, so `kernel_size`, `pooling` and `dropout` keep their defaults. -/
def unet2DInit (conv_filters : List Nat) (n_inputs : Nat)
    (selfDropout : ℚ := 0) : Unet2DState :=
  ⟨autoencoder2DInit conv_filters n_inputs, selfDropout⟩

/-- `Unet2D.dropout_update` (lines 167-169): the external
`super().dropout_update()` sets `self.dropout` to some new value `d'`
(modelled as a parameter, since `BaseModel` is an external collaborator),
and line 169 copies it into `self.autoencoder.dropout`. -/
def dropout_update (s : Unet2DState) (dNew : ℚ) : Unet2DState :=
  ⟨⟨s.autoencoder.conv_filters, s.autoencoder.n_inputs,
    s.autoencoder.kernel_size, s.autoencoder.pooling, dNew⟩, dNew⟩

/-! ### `models.py`, `Unet2D.test` (lines 171-236) -/

/-- Parameters of `def test(self, data, verbose=True)` (lines 171-173),
excluding `self`. -/
def unetTestParams : List String := ["data", "verbose"]

/-- Keyword arguments of the only call site,
`net.test([downtest_x], patch_size=None)` (`tree_detection.py` line 256). -/
def unetTestCallKwargs : List String := ["patch_size"]

/-- A Python call binds successfully only if every keyword argument names a
parameter; otherwise it raises
`TypeError: got an unexpected keyword argument`. -/
def pyCallAccepts (params kwargs : List String) : Bool :=
  kwargs.all (params.contains ·)

/-- Per-axis tile boundaries of `Unet2D.test`:
`list(range(0, lim, 256))[:-1] + [lim]` (lines 188-190). -/
def testLimits (lim : Nat) : List Nat :=
  (pyRange0 lim 256).dropLast ++ [lim]

/-- The tile loop of `Unet2D.test` (lines 191-208) on a mosaic of spatial
shape `(H, W)`, as the code is written: `limits` is the *pair* of boundary
lists, `limits_product` ranges over all boundary indices of each axis, and
each iteration builds `slice(limits[xi], limits[xi+1])` — indexing the
two-element tuple `limits` itself, so the slice bounds are whole boundary
lists.  Indexing past the tuple raises `IndexError`; using list-valued
slice bounds to index the mosaic (line 199) raises `TypeError`.  The result
accumulates the extracted tile coordinates (it never gets that far). -/
def testTileLoop (H W : Nat) : Except String (List (Nat × Nat)) :=
  let limits : List (List Nat) := [testLimits H, testLimits W]
  let limitsProduct : List (Nat × Nat) :=
    (List.range (testLimits H).length).flatMap
      (fun xi => (List.range (testLimits W).length).map (fun xj => (xi, xj)))
  limitsProduct.foldlM
    (fun _acc (t : Nat × Nat) => do
      let _xstart ← match limits.get? t.1 with
        | some v => Except.ok v
        | none => Except.error "IndexError: tuple index out of range"
      let _xstop ← match limits.get? (t.1 + 1) with
        | some v => Except.ok v
        | none => Except.error "IndexError: tuple index out of range"
      let _ystart ← match limits.get? t.2 with
        | some v => Except.ok v
        | none => Except.error "IndexError: tuple index out of range"
      let _ystop ← match limits.get? (t.2 + 1) with
        | some v => Except.ok v
        | none => Except.error "IndexError: tuple index out of range"
      Except.error "TypeError: slice indices must be integers")
    ([] : List (Nat × Nat))

/-! ### `tree_detection.py`, per-mosaic channel standardisation (114-120)

A raw input stack `x[i]` is a list of channels (the code reshapes each
channel to a flat vector before taking `np.mean`/`np.std`, so the channels
are kept flattened here).  `np.std` (default `ddof=0`) is the square root of
the mean squared deviation; the floating square root itself is kept as a
function parameter `sqrtFn`, since no claim depends on its numeric value. -/

/-- `np.mean` of a flat vector. -/
def npMean (l : List ℚ) : ℚ := l.sum / l.length

/-- Population variance (the quantity under the root of `np.std`,
`ddof=0`). -/
def npVar (l : List ℚ) : ℚ :=
  (l.map (fun v => (v - npMean l) ^ 2)).sum / l.length

/-- `np.std` of a flat vector: `sqrtFn` applied to the population
variance. -/
def npStd (sqrtFn : ℚ → ℚ) (l : List ℚ) : ℚ := sqrtFn (npVar l)

/-- Lines 114-120: `(xi - mean_i.reshape(-1,1,1)) / std_i.reshape(-1,1,1)`
per channel — every pixel of channel `ch` becomes
`(v - npMean ch) / npStd ch`. -/
def normalizeStack (sqrtFn : ℚ → ℚ) (x : Img) : Img :=
  x.map (fun ch => ch.map (fun v => (v - npMean ch) / npStd sqrtFn ch))

/-! ### `tree_detection.py`, leave-one-mosaic-out folds (128-180) -/

/-- Fold `i` of the cross-validation loop: `test = xs[i]`,
`pool = xs[:i] + xs[i+1:]` (lines 139-143), and the positional
train/validation split of the pool (lines 171-180). -/
structure Fold (α : Type) where
  testCase : α
  pool : List α
  train : List α
  val : List α
  deriving DecidableEq, Repr

/-- `int(n_samples * (1 - val_split))` with `val_split = 0.1` (line 174), in
exact arithmetic: `⌊n * 9/10⌋`. -/
def nTrainSamples (n : Nat) : Nat := n * 9 / 10

/-- One fold of the loop `for i, case in enumerate(cases)` (lines 128-180):
the held-out test mosaic, the training pool, and its positional split
`d_train = train_x[:n_t]`, `d_val = train_x[n_t:]` (lines 176-177). -/
def mkFold (xs : List α) (d : α) (i : Nat) : Fold α :=
  let pool := xs.take i ++ xs.drop (i + 1)
  let nt := nTrainSamples pool.length
  ⟨xs.getD i d, pool, pool.take nt, pool.drop nt⟩

/-- All folds of the cross-validation loop, one per mosaic. -/
def cvFolds (xs : List α) (d : α) : List (Fold α) :=
  (List.range xs.length).map (mkFold xs d)

/-! ### `tree_detection.py`, per-fold artifact lookup (153-230) -/

/-- Model file name `'{:}.d{:}.unc.mosaic{:}.mdl'.format(net_name, ratio,
case)` (line 153). -/
def modelKey (netName : String) (ratio : Nat) (caseId : String) : String :=
  netName ++ ".d" ++ toString ratio ++ ".unc.mosaic" ++ caseId ++ ".mdl"

/-- Observable outcome of one fold's `try/except` block (lines 157-230):
whether training ran, which key a new artifact was saved under, whether the
fold went on to the test phase, and which exception (if any) escaped to the
caller. -/
structure FoldTrace where
  trained : Bool
  savedKey : Option String
  proceedsToTest : Bool
  surfacedError : Option String
  deriving DecidableEq, Repr

/-- Lines 157-230: `net.load_model(path)` is attempted with the artifact key
for `(netName, ratio, caseId)`; the load itself is external, so its outcome
is a parameter (`Except`, the error being the raised `IOError`).  On
`IOError` the handler builds the datasets, fits, and saves a new artifact
under the same key; on success training is skipped.  Either way control
falls through to the test phase and no exception escapes. -/
def foldRun (netName : String) (ratio : Nat) (caseId : String)
    (loadOutcome : Except String Unit) : FoldTrace :=
  match loadOutcome with
  | .ok _ => ⟨false, none, true, none⟩
  | .error _ => ⟨true, some (modelKey netName ratio caseId), true, none⟩

/-! ### `tree_detection.py`, reduced-resolution ratio path (251-258) -/

/-- The second argument of the `imresize` call on lines 251-255, exactly as
written: `test_x.shape[0] + [length // ratio for length in
test_x.shape[1:]]` — a Python `int` plus a Python `list`. -/
def ratioDownShapeExpr (shape : List Nat) (ratio : Nat) : Except String PyVal :=
  pyAdd (.int (shape.headD 0)) (.list ((shape.drop 1).map (· / ratio)))

/-- The spec's intent for the same expression (`Modelled from the spec:`
"the ratio path downsamples the mosaic by `r` along the spatial axes only,
channel axis untouched"): the channel extent kept, the spatial extents
floor-divided by the ratio. -/
def ratioDownShapeIntent (shape : List Nat) (ratio : Nat) : List Nat :=
  shape.take 1 ++ (shape.drop 1).map (· / ratio)

/-! ## Claims -/

/-- Claim C1: the tile loop of `Unet2D.test` is claimed to extract every
tile of the boundary cover exactly once and write it back at its own
coordinates.  In the code as written this is impossible: on a 300×300
mosaic the boundary lists are `[0, 300]`, but the loop builds
`slice(limits[xi], limits[xi+1])` from the two-element *tuple* of boundary
lists, so the very first tile already raises `TypeError` (and the iteration
would go on to read `limits[2]`, an `IndexError`).  Moreover for an axis
extent of at most 256 the generated boundary list is just `[extent]`,
without the leading `0`, so it cannot cover `[0, extent)`. -/
theorem unet2D_test_tiling_raises :
    testTileLoop 300 300
        = Except.error "TypeError: slice indices must be integers"
      ∧ testLimits 300 = [0, 300] ∧ testLimits 100 = [100] :=
  ⟨rfl, rfl, rfl⟩

/-- Claim C2: `Unet2D.test` is claimed to accept a `patch_size` keyword.
Its parameter list is `(self, data, verbose=True)`, so the repository's own
call `net.test([downtest_x], patch_size=None)` (`tree_detection.py` 256)
raises `TypeError: test() got an unexpected keyword argument
'patch_size'`. -/
theorem unet2D_test_rejects_patch_size :
    pyCallAccepts unetTestParams unetTestCallKwargs = false
      ∧ "patch_size" ∉ unetTestParams := by decide

/-- Claim C3: the ratio path is claimed to downsample the spatial axes by
`ratio` and leave the channel axis untouched.  The target-shape expression
`test_x.shape[0] + [length // ratio for length in test_x.shape[1:]]`
(`tree_detection.py` 251-255) adds a Python `int` to a Python `list`, so
for a stack of shape `(4, 300, 300)` and ratio 10 it raises `TypeError`
instead of producing the intended `[4, 30, 30]`. -/
theorem ratio_downsample_shape_raises :
    ratioDownShapeExpr [4, 300, 300] 10
        = Except.error "TypeError: unsupported operand type(s) for +"
      ∧ ratioDownShapeIntent [4, 300, 300] 10 = [4, 30, 30] :=
  ⟨rfl, rfl⟩

/-- Claim C4, counterexample: with pooling enabled the forward pass does
not preserve spatial shape for every input — on a `(1, 1, 1, 1)` input with
configuration `[1, 1]`, `F.max_pool2d(·, 2)` is applied to a 1×1 map and
fails, so the forward pass does not return a `(1, 2, 1, 1)` output. -/
theorem unet_forward_pooling_shape_claim_false :
    unetForwardSh [1, 1] 1 2 true ⟨1, 1, 1, 1⟩ = none
      ∧ unetForwardSh [1, 1] 1 2 true ⟨1, 1, 1, 1⟩
          ≠ some ⟨1, 2, 1, 1⟩ := by
  refine ⟨rfl, by decide⟩

/-- Resolve a `getD` at an index known to be in bounds. -/
theorem getD_eq_getElem' {α : Type} {l : List α} {n : Nat} (d : α)
    (h : n < l.length) : l.getD n d = l[n] := by
  simp [List.getD_eq_getElem?_getD, List.getElem?_eq_getElem h]

/-- Claim C5: channel structure of `Autoencoder2D.__init__` for a filter
list `[c0, …, c_{L-1}]` with `L ≥ 2`: the down path has `L-1` blocks, stage
`j` mapping `(n_inputs if j = 0 else c_{j-1}) → c_j`; the bottleneck maps
`c_{L-2} → c_{L-1}`; the up path has `L-1` transpose blocks in reverse
stage order, block `j` taking `c_{L-1-j} + c_{L-2-j}` input channels (the
previous up-path output plus the matching skip buffer) and producing
`c_{L-2-j}`; the final up-path output width is `c0`. -/
theorem autoencoder2D_channel_structure (nin : Nat) (cf : List Nat)
    (hL : 2 ≤ cf.length) :
    (downPairs nin cf).length = cf.length - 1
    ∧ (∀ j, j < cf.length - 1 →
        (downPairs nin cf).getD j (0, 0)
          = (if j = 0 then nin else cf.getD (j - 1) 0, cf.getD j 0))
    ∧ uPair cf = (cf.getD (cf.length - 2) 0, cf.getD (cf.length - 1) 0)
    ∧ (upPairs cf).length = cf.length - 1
    ∧ (∀ j, j < cf.length - 1 →
        (upPairs cf).getD j (0, 0)
          = (cf.getD (cf.length - 1 - j) 0 + cf.getD (cf.length - 2 - j) 0,
             cf.getD (cf.length - 2 - j) 0))
    ∧ ((upPairs cf).getD (cf.length - 2) (0, 0)).2 = cf.getD 0 0 := by
  have hdl : cf.dropLast.length = cf.length - 1 := by
    simp [List.length_dropLast]
  have hddl : cf.dropLast.dropLast.length = cf.length - 2 := by
    simp [List.length_dropLast]; omega
  have hdown : (downPairs nin cf).length = cf.length - 1 := by
    simp [downPairs, List.length_zip, hdl, hddl]; omega
  have hdo : (down_out cf).length = cf.length - 1 := by
    simp [down_out, hdl]
  have huo : (up_out cf).length = cf.length - 1 := by
    simp [up_out]
  have hdi : (deconv_in cf).length = cf.length - 1 := by
    simp [deconv_in, List.length_zipWith, hdo, huo]
  have hup : (upPairs cf).length = cf.length - 1 := by
    simp [upPairs, List.length_zip, hdi, hdo]
  have hdoel : ∀ j, j < cf.length - 1 →
      (down_out cf).getD j 0 = cf.getD (cf.length - 2 - j) 0 := by
    intro j hj
    have h1 : j < (down_out cf).length := by omega
    have h2 : cf.length - 2 - j < cf.length := by omega
    rw [getD_eq_getElem' _ h1, getD_eq_getElem' _ h2]
    simp only [down_out] at h1 ⊢
    rw [List.getElem_reverse, List.getElem_dropLast]
    congr 1
    omega
  have huoel : ∀ j, j < cf.length - 1 →
      (up_out cf).getD j 0 = cf.getD (cf.length - 1 - j) 0 := by
    intro j hj
    have h1 : j < (up_out cf).length := by omega
    have h2 : cf.length - 1 - j < cf.length := by omega
    rw [getD_eq_getElem' _ h1, getD_eq_getElem' _ h2]
    simp only [up_out] at h1 ⊢
    rw [List.getElem_reverse, List.getElem_drop]
    have hd1 : (List.drop 1 cf).length = cf.length - 1 := by simp
    congr 1
    omega
  have hdiel : ∀ j, j < cf.length - 1 →
      (deconv_in cf).getD j 0
        = cf.getD (cf.length - 2 - j) 0 + cf.getD (cf.length - 1 - j) 0 := by
    intro j hj
    have h1 : j < (down_out cf).length := by omega
    have h2 : j < (up_out cf).length := by omega
    have h3 : j < (deconv_in cf).length := by omega
    rw [getD_eq_getElem' _ h3]
    simp only [deconv_in] at h3 ⊢
    rw [List.getElem_zipWith]
    rw [← getD_eq_getElem' 0 h1, ← getD_eq_getElem' 0 h2]
    rw [hdoel j hj, huoel j hj]
  have hupel : ∀ j, j < cf.length - 1 →
      (upPairs cf).getD j (0, 0)
        = (cf.getD (cf.length - 1 - j) 0 + cf.getD (cf.length - 2 - j) 0,
           cf.getD (cf.length - 2 - j) 0) := by
    intro j hj
    have h1 : j < (deconv_in cf).length := by omega
    have h2 : j < (down_out cf).length := by omega
    have h3 : j < (upPairs cf).length := by omega
    rw [getD_eq_getElem' _ h3]
    simp only [upPairs] at h3 ⊢
    rw [List.getElem_zip]
    rw [← getD_eq_getElem' 0 h1, ← getD_eq_getElem' 0 h2]
    rw [hdiel j hj, hdoel j hj, Nat.add_comm]
  refine ⟨hdown, ?_, rfl, hup, hupel, ?_⟩
  · intro j hj
    have hjz : j < (downPairs nin cf).length := by omega
    rw [getD_eq_getElem' _ hjz]
    simp only [downPairs] at hjz ⊢
    rw [List.getElem_zip]
    rcases j with _ | j
    · simp only [List.getElem_cons_zero, List.getElem_dropLast]
      rw [getD_eq_getElem' _ (by omega : 0 < cf.length)]
      simp
    · simp only [List.getElem_cons_succ]
      rw [List.getElem_dropLast, List.getElem_dropLast, List.getElem_dropLast]
      have h1 : j < cf.length := by omega
      have h2 : j + 1 < cf.length := by omega
      simp only [Nat.add_sub_cancel]
      rw [getD_eq_getElem' _ h1, getD_eq_getElem' _ h2]
      simp
  · rw [hupel (cf.length - 2) (by omega)]
    have e0 : cf.length - 2 - (cf.length - 2) = 0 := by omega
    show cf.getD (cf.length - 2 - (cf.length - 2)) 0 = cf.getD 0 0
    rw [e0]

/-- Witness for claim C5 at `n_inputs = 4`, `conv_filters = [8, 16, 32,
64]` (the `Unet2D` defaults). -/
theorem autoencoder2D_channel_structure_witness :
    2 ≤ ([8, 16, 32, 64] : List Nat).length
    ∧ ((downPairs 4 [8, 16, 32, 64]).length = [8, 16, 32, 64].length - 1
      ∧ (∀ j, j < [8, 16, 32, 64].length - 1 →
          (downPairs 4 [8, 16, 32, 64]).getD j (0, 0)
            = (if j = 0 then 4 else [8, 16, 32, 64].getD (j - 1) 0,
               [8, 16, 32, 64].getD j 0))
      ∧ uPair [8, 16, 32, 64]
          = ([8, 16, 32, 64].getD ([8, 16, 32, 64].length - 2) 0,
             [8, 16, 32, 64].getD ([8, 16, 32, 64].length - 1) 0)
      ∧ (upPairs [8, 16, 32, 64]).length = [8, 16, 32, 64].length - 1
      ∧ (∀ j, j < [8, 16, 32, 64].length - 1 →
          (upPairs [8, 16, 32, 64]).getD j (0, 0)
            = ([8, 16, 32, 64].getD ([8, 16, 32, 64].length - 1 - j) 0
                 + [8, 16, 32, 64].getD ([8, 16, 32, 64].length - 2 - j) 0,
               [8, 16, 32, 64].getD ([8, 16, 32, 64].length - 2 - j) 0))
      ∧ ((upPairs [8, 16, 32, 64]).getD ([8, 16, 32, 64].length - 2)
            (0, 0)).2 = [8, 16, 32, 64].getD 0 0) :=
  ⟨by decide, autoencoder2D_channel_structure 4 [8, 16, 32, 64] (by decide)⟩

/-- Claim C6: the cross-validation loop over `n ≥ 2` mosaics produces
exactly `n` folds; fold `i` holds out mosaic `i` (so the test cases, in
order, are exactly the mosaic list: every mosaic is a test case exactly
once) and pools all the others (`xs[:i] + xs[i+1:] = xs.eraseIdx i`); the
pool splits positionally, the first `int(n_pool * (1 - 0.1))` members
becoming training and the remainder validation. -/
theorem cv_folds_leave_one_out {α : Type} (xs : List α) (d : α)
    (h2 : 2 ≤ xs.length) :
    (cvFolds xs d).length = xs.length
    ∧ (cvFolds xs d).map Fold.testCase = xs
    ∧ (∀ i, i < xs.length →
        ((cvFolds xs d).getD i ⟨d, [], [], []⟩).pool = xs.eraseIdx i
        ∧ ((cvFolds xs d).getD i ⟨d, [], [], []⟩).train
            ++ ((cvFolds xs d).getD i ⟨d, [], [], []⟩).val
            = ((cvFolds xs d).getD i ⟨d, [], [], []⟩).pool
        ∧ ((cvFolds xs d).getD i ⟨d, [], [], []⟩).train.length
            = nTrainSamples (xs.length - 1)) := by
  have hlen : (cvFolds xs d).length = xs.length := by
    simp [cvFolds]
  have hget : ∀ i, i < xs.length →
      (cvFolds xs d).getD i ⟨d, [], [], []⟩ = mkFold xs d i := by
    intro i hi
    have hi' : i < (cvFolds xs d).length := by omega
    rw [getD_eq_getElem' _ hi']
    simp only [cvFolds] at hi' ⊢
    rw [List.getElem_map, List.getElem_range]
  refine ⟨hlen, ?_, ?_⟩
  · apply List.ext_getElem
    · simp [hlen]
    · intro i h1 h2'
      simp only [List.getElem_map, cvFolds, List.getElem_range]
      exact getD_eq_getElem' d h2'
  · intro i hi
    rw [hget i hi]
    have hpool : (mkFold xs d i).pool = xs.take i ++ xs.drop (i + 1) := rfl
    have hplen : (xs.take i ++ xs.drop (i + 1)).length = xs.length - 1 := by
      simp only [List.length_append, List.length_take, List.length_drop]
      omega
    refine ⟨?_, ?_, ?_⟩
    · rw [hpool, List.eraseIdx_eq_take_drop_succ]
    · simp only [mkFold]
      exact List.take_append_drop _ _
    · simp only [mkFold, List.length_take, hplen]
      have hle : nTrainSamples (xs.length - 1) ≤ xs.length - 1 := by
        simp only [nTrainSamples]
        omega
      omega

/-- Witness for claim C6 on the three-mosaic list `[10, 20, 30]`. -/
theorem cv_folds_leave_one_out_witness :
    2 ≤ ([10, 20, 30] : List Nat).length
    ∧ ((cvFolds [10, 20, 30] 0).length = [10, 20, 30].length
      ∧ (cvFolds [10, 20, 30] 0).map Fold.testCase = [10, 20, 30]
      ∧ (∀ i, i < [10, 20, 30].length →
          ((cvFolds [10, 20, 30] 0).getD i ⟨0, [], [], []⟩).pool
              = [10, 20, 30].eraseIdx i
          ∧ ((cvFolds [10, 20, 30] 0).getD i ⟨0, [], [], []⟩).train
              ++ ((cvFolds [10, 20, 30] 0).getD i ⟨0, [], [], []⟩).val
              = ((cvFolds [10, 20, 30] 0).getD i ⟨0, [], [], []⟩).pool
          ∧ ((cvFolds [10, 20, 30] 0).getD i ⟨0, [], [], []⟩).train.length
              = nTrainSamples ([10, 20, 30].length - 1))) :=
  ⟨by decide, cv_folds_leave_one_out [10, 20, 30] 0 (by decide)⟩

/-- Claim C7: per-fold artifact handling.  Whatever the outcome of
`net.load_model`, no exception escapes the fold and control reaches the
test phase; on a load failure (the raised `IOError`) the handler trains and
saves a new artifact under the same `(net_name, ratio, case)` key; on a
successful load, training is skipped entirely. -/
theorem fold_load_failure_recovered (netName : String) (ratio : Nat)
    (caseId : String) :
    (∀ r : Except String Unit,
        (foldRun netName ratio caseId r).surfacedError = none
        ∧ (foldRun netName ratio caseId r).proceedsToTest = true)
    ∧ (∀ e : String,
        (foldRun netName ratio caseId (.error e)).trained = true
        ∧ (foldRun netName ratio caseId (.error e)).savedKey
            = some (modelKey netName ratio caseId))
    ∧ (foldRun netName ratio caseId (.ok ()) ).trained = false := by
  refine ⟨fun r => ?_, fun e => ⟨rfl, rfl⟩, rfl⟩
  cases r <;> exact ⟨rfl, rfl⟩

/-- The fold of the pipeline actually built on the *normalized* stacks:
lines 117-120 build `norm_x`, lines 139-143 split it, never touching the
raw `x` again. -/
def pipelineFold (sqrtFn : ℚ → ℚ) (x : List Img) (i : Nat) : Fold Img :=
  mkFold (x.map (normalizeStack sqrtFn)) [] i

/-- Claim C9: for every fold, the held-out test stack and every stack in
the training pool (and hence in its train/val split) are the standardized
versions of the corresponding raw stacks — per channel, each pixel has that
channel's mean subtracted and is divided by that channel's standard
deviation — and nothing else is fed. -/
theorem fold_inputs_standardized (sqrtFn : ℚ → ℚ) (x : List Img) (i : Nat)
    (hi : i < x.length) :
    (pipelineFold sqrtFn x i).testCase = normalizeStack sqrtFn (x.getD i [])
    ∧ (pipelineFold sqrtFn x i).pool
        = (x.eraseIdx i).map (normalizeStack sqrtFn)
    ∧ (∀ m ∈ (pipelineFold sqrtFn x i).train
          ++ (pipelineFold sqrtFn x i).val,
        ∃ raw ∈ x, m = normalizeStack sqrtFn raw)
    ∧ (∀ s : Img, ∀ c, c < s.length → ∀ q, q < (s.getD c []).length →
        ((normalizeStack sqrtFn s).getD c []).getD q 0
          = ((s.getD c []).getD q 0 - npMean (s.getD c []))
              / npStd sqrtFn (s.getD c [])) := by
  have hmaplen : (x.map (normalizeStack sqrtFn)).length = x.length := by
    simp
  refine ⟨?_, ?_, ?_, ?_⟩
  · show (x.map (normalizeStack sqrtFn)).getD i [] = _
    rw [getD_eq_getElem' _ (by omega : i < (x.map (normalizeStack sqrtFn)).length),
        List.getElem_map, getD_eq_getElem' _ hi]
  · show (x.map (normalizeStack sqrtFn)).take i
        ++ (x.map (normalizeStack sqrtFn)).drop (i + 1) = _
    rw [← List.map_take, ← List.map_drop, ← List.map_append,
        List.eraseIdx_eq_take_drop_succ]
  · intro m hm
    have hm' : m ∈ (pipelineFold sqrtFn x i).pool := by
      have := List.take_append_drop
        (nTrainSamples (pipelineFold sqrtFn x i).pool.length)
        (pipelineFold sqrtFn x i).pool
      rw [show (pipelineFold sqrtFn x i).train
            = (pipelineFold sqrtFn x i).pool.take
                (nTrainSamples (pipelineFold sqrtFn x i).pool.length)
          from rfl] at hm
      rw [show (pipelineFold sqrtFn x i).val
            = (pipelineFold sqrtFn x i).pool.drop
                (nTrainSamples (pipelineFold sqrtFn x i).pool.length)
          from rfl] at hm
      rw [this] at hm
      exact hm
    have hpool : (pipelineFold sqrtFn x i).pool
        = (x.map (normalizeStack sqrtFn)).take i
          ++ (x.map (normalizeStack sqrtFn)).drop (i + 1) := rfl
    rw [hpool] at hm'
    rcases List.mem_append.mp hm' with h | h
    · obtain ⟨raw, hraw, rfl⟩ :=
        List.mem_map.mp (List.mem_of_mem_take h)
      exact ⟨raw, hraw, rfl⟩
    · obtain ⟨raw, hraw, rfl⟩ :=
        List.mem_map.mp (List.mem_of_mem_drop h)
      exact ⟨raw, hraw, rfl⟩
  · intro s c hc q hq
    have hcm : c < (normalizeStack sqrtFn s).length := by
      simpa [normalizeStack] using hc
    have h1 : (normalizeStack sqrtFn s).getD c []
        = (s.getD c []).map
            (fun v => (v - npMean (s.getD c [])) / npStd sqrtFn (s.getD c [])) := by
      rw [getD_eq_getElem' _ hcm]
      simp only [normalizeStack]
      rw [List.getElem_map, getD_eq_getElem' _ hc]
    rw [h1]
    have hq' : q < ((s.getD c []).map
        (fun v => (v - npMean (s.getD c [])) / npStd sqrtFn (s.getD c []))).length := by
      simpa using hq
    rw [getD_eq_getElem' _ hq', List.getElem_map, getD_eq_getElem' _ hq]

/-- Witness for claim C9: two raw stacks of two channels each, fold 0,
`sqrtFn = id`. -/
theorem fold_inputs_standardized_witness :
    0 < ([[[1, 3], [2, 2]], [[4, 0], [1, 5]]] : List Img).length
    ∧ ((pipelineFold id [[[1, 3], [2, 2]], [[4, 0], [1, 5]]] 0).testCase
        = normalizeStack id
            (([[[1, 3], [2, 2]], [[4, 0], [1, 5]]] : List Img).getD 0 [])
      ∧ (pipelineFold id [[[1, 3], [2, 2]], [[4, 0], [1, 5]]] 0).pool
          = (([[[1, 3], [2, 2]], [[4, 0], [1, 5]]] : List Img).eraseIdx 0).map
              (normalizeStack id)
      ∧ (∀ m ∈ (pipelineFold id [[[1, 3], [2, 2]], [[4, 0], [1, 5]]] 0).train
            ++ (pipelineFold id [[[1, 3], [2, 2]], [[4, 0], [1, 5]]] 0).val,
          ∃ raw ∈ ([[[1, 3], [2, 2]], [[4, 0], [1, 5]]] : List Img),
            m = normalizeStack id raw)
      ∧ (∀ s : Img, ∀ c, c < s.length → ∀ q, q < (s.getD c []).length →
          ((normalizeStack id s).getD c []).getD q 0
            = ((s.getD c []).getD q 0 - npMean (s.getD c []))
                / npStd id (s.getD c []))) :=
  ⟨by decide,
   fold_inputs_standardized id [[[1, 3], [2, 2]], [[4, 0], [1, 5]]] 0
     (by decide)⟩

/-- Outside training mode, `F.dropout2d` is the identity, whatever the rate
and whatever the Bernoulli draws. -/
theorem dropout2dV_not_training (p : ℚ) (mask : List Bool) (x : Img) :
    dropout2dV p false mask x = x := by
  simp [dropout2dV]

/-- With `training = False`, the down-path result does not depend on the
dropout mask stream. -/
theorem downLoopV_eval_mask_irrel (pool : Img → Img) (pooling : Bool)
    (p : ℚ) :
    ∀ (bs : List (Img → Img)) (m1 m2 : List (List Bool)) (x : Img),
      (downLoopV pool pooling p false bs m1 x).1
        = (downLoopV pool pooling p false bs m2 x).1
      ∧ (downLoopV pool pooling p false bs m1 x).2.2
        = (downLoopV pool pooling p false bs m2 x).2.2 := by
  intro bs
  induction bs with
  | nil => intro m1 m2 x; exact ⟨rfl, rfl⟩
  | cons c rest ih =>
    intro m1 m2 x
    simp only [downLoopV, dropout2dV_not_training]
    refine ⟨?_, (ih (m1.drop 1) (m2.drop 1) _).2⟩
    rw [(ih (m1.drop 1) (m2.drop 1) _).1]

/-- With `training = False`, the up-path result does not depend on the
dropout mask stream. -/
theorem upLoopV_eval_mask_irrel (interpTo : Img → Img → Img)
    (pooling : Bool) (p : ℚ) :
    ∀ (bs : List (Img → Img)) (skips : List Img)
      (m1 m2 : List (List Bool)) (x : Img),
      upLoopV interpTo pooling p false bs skips m1 x
        = upLoopV interpTo pooling p false bs skips m2 x := by
  intro bs
  induction bs with
  | nil => intro skips m1 m2 x; rfl
  | cons d rest ih =>
    intro skips m1 m2 x
    cases skips with
    | nil => rfl
    | cons skip skips' =>
      simp only [upLoopV, dropout2dV_not_training]
      exact ih skips' _ _ _

/-- Claim C8: in evaluation mode (`training = False`, which `Unet2D.test`
sets through `self.eval()`) the autoencoder forward pass is a deterministic
function of its input — two passes with different Bernoulli draws give the
same output, because channel-wise dropout is the identity at inference —
while in training mode with a rate `> 0` two passes on the same input can
differ. -/
theorem autoencoder_eval_deterministic :
    (∀ (p : ℚ) (mask : List Bool) (x : Img), dropout2dV p false mask x = x)
    ∧ (∀ (downs : List (Img → Img)) (u : Img → Img)
        (ups : List (Img → Img)) (pool : Img → Img)
        (interpTo : Img → Img → Img) (pooling : Bool) (p : ℚ)
        (m1 m2 : List (List Bool)) (x : Img),
        aeForwardV downs u ups pool interpTo pooling p false m1 x
          = aeForwardV downs u ups pool interpTo pooling p false m2 x)
    ∧ (∃ (p : ℚ) (m1 m2 : List (List Bool)) (x : Img),
        0 < p
        ∧ aeForwardV [id] id [id] id (fun a _ => a) false p true m1 x
            ≠ aeForwardV [id] id [id] id (fun a _ => a) false p true m2 x) := by
  refine ⟨dropout2dV_not_training, ?_, ?_⟩
  · intro downs u ups pool interpTo pooling p m1 m2 x
    have hd := downLoopV_eval_mask_irrel pool pooling p downs m1 m2 x
    simp only [aeForwardV, dropout2dV_not_training]
    rw [hd.1, hd.2]
    exact upLoopV_eval_mask_irrel interpTo pooling p ups _ _ _ _
  · refine ⟨1/2, [[true], [true], [true, true]],
      [[false], [false], [false, false]], [[1]], by norm_num, ?_⟩
    simp only [aeForwardV, downLoopV, upLoopV, dropout2dV, List.headD,
      List.drop, id, List.reverse_cons, List.reverse_nil, List.nil_append,
      List.zipWith, List.map]
    norm_num

/-! ### Shape lemmas for the forward pass (used by claims C4 and C10) -/

/-- At the kernel size 3 of `Unet2D`, a Convolutional Block preserves the
spatial extents (padding `3//2 = 1`). -/
theorem convBlockSh_three (fi fo : Nat) (s : TShape) :
    convBlockSh fi fo 3 s
      = if s.c = fi ∧ 1 ≤ s.h ∧ 1 ≤ s.w then some ⟨s.n, fo, s.h, s.w⟩
        else none := by
  simp only [convBlockSh]
  by_cases h : s.c = fi ∧ 1 ≤ s.h ∧ 1 ≤ s.w
  · rw [if_pos ⟨h.1, by omega, by omega⟩, if_pos h]
    have e1 : s.h + 2 * (3 / 2) + 1 - 3 = s.h := by omega
    have e2 : s.w + 2 * (3 / 2) + 1 - 3 = s.w := by omega
    rw [e1, e2]
  · rw [if_neg (fun hc => h ⟨hc.1, by omega, by omega⟩), if_neg h]

/-- At kernel size 1 (the segmentation head), a convolution preserves the
spatial extents (no padding). -/
theorem convBlockSh_one (fi fo : Nat) (s : TShape) :
    convBlockSh fi fo 1 s
      = if s.c = fi ∧ 1 ≤ s.h ∧ 1 ≤ s.w then some ⟨s.n, fo, s.h, s.w⟩
        else none := by
  simp only [convBlockSh]
  by_cases h : s.c = fi ∧ 1 ≤ s.h ∧ 1 ≤ s.w
  · rw [if_pos ⟨h.1, by omega, by omega⟩, if_pos h]
    have e1 : s.h + 2 * (1 / 2) + 1 - 1 = s.h := by omega
    have e2 : s.w + 2 * (1 / 2) + 1 - 1 = s.w := by omega
    rw [e1, e2]
  · rw [if_neg (fun hc => h ⟨hc.1, by omega, by omega⟩), if_neg h]

/-- At kernel size 3, a transpose Convolutional Block preserves the spatial
extents. -/
theorem convTBlockSh_three (fi fo : Nat) (s : TShape) :
    convTBlockSh fi fo 3 s
      = if s.c = fi ∧ 1 ≤ s.h ∧ 1 ≤ s.w then some ⟨s.n, fo, s.h, s.w⟩
        else none := by
  simp only [convTBlockSh]
  by_cases h : s.c = fi ∧ 1 ≤ s.h ∧ 1 ≤ s.w
  · rw [if_pos ⟨h.1, by omega, by omega⟩, if_pos h]
    have e1 : s.h + 3 - (2 * (3 / 2) + 1) = s.h := by omega
    have e2 : s.w + 3 - (2 * (3 / 2) + 1) = s.w := by omega
    rw [e1, e2]
  · rw [if_neg (fun hc => h ⟨hc.1, by omega, by omega⟩), if_neg h]

/-- For extents of at least 2, the pooled extent `(h-2)/2 + 1` is `h/2`. -/
theorem maxPool2dSh_apply (s : TShape) (hh : 2 ≤ s.h) (hw : 2 ≤ s.w) :
    maxPool2dSh s = some ⟨s.n, s.c, s.h / 2, s.w / 2⟩ := by
  simp only [maxPool2dSh, if_pos (⟨hh, hw⟩ : 2 ≤ s.h ∧ 2 ≤ s.w)]
  have e1 : (s.h - 2) / 2 + 1 = s.h / 2 := by omega
  have e2 : (s.w - 2) / 2 + 1 = s.w / 2 := by omega
  rw [e1, e2]

/-- Down path without pooling: on a chained pair list every block applies,
every skip buffer keeps the input's spatial extents, and the final feature
map has the last channel width of the chain. -/
theorem downLoopSh_chain_noPool (l : List Nat) :
    ∀ (a : Nat) (s : TShape), s.c = a → 1 ≤ s.h → 1 ≤ s.w →
      downLoopSh 3 false (chainPairs a l) s
        = some (l.map (fun c => TShape.mk s.n c s.h s.w),
                ⟨s.n, l.getLastD a, s.h, s.w⟩) := by
  induction l with
  | nil =>
    intro a s hc hh hw
    obtain ⟨n, c, h, w⟩ := s
    cases hc
    rfl
  | cons b t ih =>
    intro a s hc hh hw
    have h1 : convBlockSh a b 3 s = some ⟨s.n, b, s.h, s.w⟩ := by
      rw [convBlockSh_three, if_pos ⟨hc, hh, hw⟩]
    have h2 : downLoopSh 3 false (chainPairs b t) ⟨s.n, b, s.h, s.w⟩
        = some (t.map (fun c => TShape.mk s.n c s.h s.w),
                ⟨s.n, t.getLastD b, s.h, s.w⟩) :=
      ih b ⟨s.n, b, s.h, s.w⟩ rfl hh hw
    simp only [chainPairs, downLoopSh, h1, h2, Option.bind_eq_bind,
      Option.some_bind, Option.pure_def, Bool.false_eq_true, if_false,
      List.getLastD_cons, List.map_cons]

/-- The skip-buffer shapes produced by the pooled down path: channel `c_j`
at the `j`-times-halved spatial extents. -/
def poolSkips (n : Nat) : Nat → Nat → List Nat → List TShape
  | _, _, [] => []
  | h, w, c :: t => ⟨n, c, h, w⟩ :: poolSkips n (h / 2) (w / 2) t

/-- Down path with pooling: when both extents are at least `2^(number of
stages)`, every pool is legal, the skip buffers follow `poolSkips`, and the
final extents are divided by `2^(number of stages)`. -/
theorem downLoopSh_chain_pool (l : List Nat) :
    ∀ (a : Nat) (s : TShape), s.c = a →
      2 ^ l.length ≤ s.h → 2 ^ l.length ≤ s.w →
      downLoopSh 3 true (chainPairs a l) s
        = some (poolSkips s.n s.h s.w l,
                ⟨s.n, l.getLastD a, s.h / 2 ^ l.length, s.w / 2 ^ l.length⟩) := by
  induction l with
  | nil =>
    intro a s hc hh hw
    obtain ⟨n, c, h, w⟩ := s
    cases hc
    simp [chainPairs, downLoopSh, poolSkips]
  | cons b t ih =>
    intro a s hc hh hw
    have hh2 : 2 ≤ s.h := le_trans (by
      have : (2 : Nat) ^ 1 ≤ 2 ^ (b :: t).length :=
        Nat.pow_le_pow_right (by omega) (by simp)
      simpa using this) hh
    have hw2 : 2 ≤ s.w := le_trans (by
      have : (2 : Nat) ^ 1 ≤ 2 ^ (b :: t).length :=
        Nat.pow_le_pow_right (by omega) (by simp)
      simpa using this) hw
    have h1 : convBlockSh a b 3 s = some ⟨s.n, b, s.h, s.w⟩ := by
      rw [convBlockSh_three, if_pos ⟨hc, by omega, by omega⟩]
    have hp : maxPool2dSh ⟨s.n, b, s.h, s.w⟩
        = some ⟨s.n, b, s.h / 2, s.w / 2⟩ :=
      maxPool2dSh_apply _ hh2 hw2
    have hhd : 2 ^ t.length ≤ s.h / 2 := by
      rw [Nat.le_div_iff_mul_le (by omega)]
      calc 2 ^ t.length * 2 = 2 ^ (t.length + 1) := by
            rw [Nat.pow_succ]
        _ ≤ s.h := by simpa using hh
    have hwd : 2 ^ t.length ≤ s.w / 2 := by
      rw [Nat.le_div_iff_mul_le (by omega)]
      calc 2 ^ t.length * 2 = 2 ^ (t.length + 1) := by
            rw [Nat.pow_succ]
        _ ≤ s.w := by simpa using hw
    have h2 : downLoopSh 3 true (chainPairs b t) ⟨s.n, b, s.h / 2, s.w / 2⟩
        = some (poolSkips s.n (s.h / 2) (s.w / 2) t,
                ⟨s.n, t.getLastD b, s.h / 2 / 2 ^ t.length,
                 s.w / 2 / 2 ^ t.length⟩) :=
      ih b ⟨s.n, b, s.h / 2, s.w / 2⟩ rfl hhd hwd
    have eh : s.h / 2 / 2 ^ t.length = s.h / 2 ^ (t.length + 1) := by
      rw [Nat.div_div_eq_div_mul,
        show 2 * 2 ^ t.length = 2 ^ (t.length + 1) from by
          rw [Nat.pow_succ, Nat.mul_comm]]
    have ew : s.w / 2 / 2 ^ t.length = s.w / 2 ^ (t.length + 1) := by
      rw [Nat.div_div_eq_div_mul,
        show 2 * 2 ^ t.length = 2 ^ (t.length + 1) from by
          rw [Nat.pow_succ, Nat.mul_comm]]
    rw [eh, ew] at h2
    simp only [chainPairs, downLoopSh, h1, hp, h2, Option.bind_eq_bind,
      Option.some_bind, Option.pure_def, if_true, List.getLastD_cons,
      List.length_cons, poolSkips]

/-- One step of the up-path loop, as a bind. -/
theorem upLoopSh_cons (k : Nat) (pooling : Bool) (fi fo : Nat)
    (rest : List (Nat × Nat)) (skip : TShape) (skips : List TShape)
    (s : TShape) :
    upLoopSh k pooling ((fi, fo) :: rest) (skip :: skips) s
      = if pooling then
          (interpolateSh s (skip.h, skip.w)).bind fun si =>
            (catChSh si skip).bind fun sc =>
              (convTBlockSh fi fo k sc).bind fun s1 =>
                upLoopSh k pooling rest skips s1
        else
          (catChSh s skip).bind fun sc =>
            (convTBlockSh fi fo k sc).bind fun s1 =>
              upLoopSh k pooling rest skips s1 := by
  simp only [upLoopSh, Option.bind_eq_bind]

/-- Up path without pooling, on channel list `r` (the reversed skip
channels), previous output width `prev`, and skip buffers all at the same
spatial extents: every concatenation and transpose block applies, the
extents are preserved throughout, and the final channel width is the last
entry of `r`. -/
theorem upLoopSh_noPool (r : List Nat) :
    ∀ (prev n h w : Nat), 1 ≤ h → 1 ≤ w →
      upLoopSh 3 false
          (List.zip (List.zipWith (· + ·) r (prev :: r.dropLast)) r)
          (r.map (fun c => TShape.mk n c h w)) ⟨n, prev, h, w⟩
        = some ⟨n, r.getLastD prev, h, w⟩ := by
  induction r with
  | nil => intro prev n h w hh hw; rfl
  | cons c t ih =>
    intro prev n h w hh hw
    have hcat : catChSh ⟨n, prev, h, w⟩ ⟨n, c, h, w⟩
        = some ⟨n, prev + c, h, w⟩ := by
      simp [catChSh]
    have hconv : convTBlockSh (c + prev) c 3 ⟨n, prev + c, h, w⟩
        = some ⟨n, c, h, w⟩ := by
      rw [convTBlockSh_three, if_pos ⟨Nat.add_comm prev c, hh, hw⟩]
    cases t with
    | nil =>
      simp only [List.dropLast_single, List.zipWith_cons_cons,
        List.zipWith_nil_right, List.zip_cons_cons, List.zip_nil_right,
        List.map_cons, List.map_nil, upLoopSh_cons, hcat, hconv,
        Option.some_bind, Bool.false_eq_true, if_false,
        List.getLastD_cons, List.getLastD_nil]
      rfl
    | cons c' t' =>
      have ihh := ih c n h w hh hw
      simp only [List.dropLast_cons₂, List.dropLast_single,
        List.zipWith_cons_cons, List.zipWith_nil_right, List.zip_cons_cons,
        List.zip_nil_right, List.map_cons, List.map_nil, upLoopSh_cons,
        hcat, hconv, Option.some_bind, Bool.false_eq_true, if_false,
        List.getLastD_cons, List.getLastD_nil] at ihh ⊢
      exact ihh

/-- Up path with pooling, on arbitrary skip buffers sharing the batch
extent, each with positive spatial extents: each stage resamples to its
skip buffer's extents, so the final state is the last skip buffer (the
first down-path stage's pre-pooling output). -/
theorem upLoopSh_pool (skips : List TShape) :
    ∀ (prev : Nat) (s : TShape), s.c = prev → 1 ≤ s.h → 1 ≤ s.w →
      (∀ t ∈ skips, t.n = s.n ∧ 1 ≤ t.h ∧ 1 ≤ t.w) →
      upLoopSh 3 true
          (List.zip
            (List.zipWith (· + ·) (skips.map TShape.c)
              (prev :: (skips.map TShape.c).dropLast))
            (skips.map TShape.c))
          skips s
        = some (skips.getLastD s) := by
  induction skips with
  | nil => intro prev s hc hh hw hsk; rfl
  | cons skip rest ih =>
    intro prev s hc hh hw hsk
    obtain ⟨hn, hskh, hskw⟩ := hsk skip (List.mem_cons_self skip rest)
    have hint : interpolateSh s (skip.h, skip.w)
        = some ⟨s.n, s.c, skip.h, skip.w⟩ := by
      simp [interpolateSh, hh, hw, hskh, hskw]
    have hcat : catChSh ⟨s.n, s.c, skip.h, skip.w⟩ skip
        = some ⟨s.n, s.c + skip.c, skip.h, skip.w⟩ := by
      simp [catChSh, hn]
    have hconv : convTBlockSh (skip.c + prev) skip.c 3
          ⟨s.n, s.c + skip.c, skip.h, skip.w⟩
        = some ⟨s.n, skip.c, skip.h, skip.w⟩ := by
      rw [convTBlockSh_three,
        if_pos ⟨by rw [hc, Nat.add_comm], hskh, hskw⟩]
    cases rest with
    | nil =>
      simp only [List.map_cons, List.map_nil, List.dropLast_single,
        List.zipWith_cons_cons, List.zipWith_nil_right, List.zip_cons_cons,
        List.zip_nil_right, upLoopSh_cons, hint, hcat, hconv,
        Option.some_bind, if_true, List.getLastD_cons, List.getLastD_nil]
      show upLoopSh 3 true [] [] _ = _
      obtain ⟨n4, c4, h4, w4⟩ := skip
      rw [show n4 = s.n from hn]
      rfl
    | cons skip2 rest2 =>
      have hcond : ∀ t ∈ skip2 :: rest2,
          t.n = (TShape.mk s.n skip.c skip.h skip.w).n
          ∧ 1 ≤ t.h ∧ 1 ≤ t.w := by
        intro t ht
        exact hsk t (List.mem_cons_of_mem skip ht)
      have ihh := ih skip.c ⟨s.n, skip.c, skip.h, skip.w⟩ rfl hskh hskw hcond
      simp only [List.map_cons, List.map_nil, List.dropLast_cons₂,
        List.dropLast_single, List.zipWith_cons_cons, List.zipWith_nil_right,
        List.zip_cons_cons, List.zip_nil_right, upLoopSh_cons,
        Option.some_bind, if_true, List.getLastD_cons,
        List.getLastD_nil, hint, hcat, hconv] at ihh ⊢
      exact ihh

/-! ### Assembly lemmas: the constructor's zips on `cf = d ++ [z]` -/

/-- A nonempty list's `getLastD` does not depend on the default. -/
theorem getLastD_default_irrel {α : Type} (d : List α) (hd : d ≠ [])
    (a b : α) : d.getLastD a = d.getLastD b := by
  cases d with
  | nil => exact absurd rfl hd
  | cons x t => rw [List.getLastD_cons, List.getLastD_cons]

/-- A nonempty list's `headD` does not depend on the default. -/
theorem headD_default_irrel {α : Type} (d : List α) (hd : d ≠ [])
    (a b : α) : d.headD a = d.headD b := by
  cases d with
  | nil => exact absurd rfl hd
  | cons x t => rfl

/-- The last element of a reversed list is the head of the original. -/
theorem getLastD_reverse {α : Type} (d : List α) (a : α) :
    d.reverse.getLastD a = d.headD a := by
  rw [List.getLastD_eq_getLast?, List.getLast?_reverse,
    List.headD_eq_head?_getD]

/-- `getLastD` of a nonempty list as an indexed access. -/
theorem getLastD_eq_getElem {α : Type} (d : List α) (_hd : d ≠ []) (a : α)
    (h : d.length - 1 < d.length) : d.getLastD a = d[d.length - 1] := by
  rw [List.getLastD_eq_getLast?, List.getLast?_eq_getElem?,
    List.getElem?_eq_getElem h]
  rfl

theorem downPairs_concat (nin : Nat) (d : List Nat) (z : Nat) :
    downPairs nin (d ++ [z]) = chainPairs nin d := by
  rw [downPairs_eq_chain, List.dropLast_concat]

theorem uPair_concat (d : List Nat) (z : Nat) (hd : d ≠ []) :
    uPair (d ++ [z]) = (d.getLastD 0, z) := by
  have hdl : 1 ≤ d.length := List.length_pos.mpr hd
  have h1 : (d ++ [z]).length - 2 = d.length - 1 := by
    simp only [List.length_append, List.length_singleton]
    omega
  have h2 : (d ++ [z]).length - 1 = d.length := by
    simp only [List.length_append, List.length_singleton]
    omega
  simp only [uPair, h1, h2]
  have e1 : (d ++ [z]).getD (d.length - 1) 0 = d.getLastD 0 := by
    rw [getD_eq_getElem' _ (by simp; omega : d.length - 1 < (d ++ [z]).length),
      List.getElem_append_left (by omega : d.length - 1 < d.length),
      getLastD_eq_getElem d hd 0 (by omega)]
  have e2 : (d ++ [z]).getD d.length 0 = z := by
    rw [getD_eq_getElem' _ (by simp : d.length < (d ++ [z]).length),
      List.getElem_append_right (Nat.le_refl d.length)]
    simp
  rw [e1, e2]

theorem up_out_concat (d : List Nat) (z : Nat) (hd : d ≠ []) :
    up_out (d ++ [z]) = z :: d.reverse.dropLast := by
  have hdl : 1 ≤ d.length := List.length_pos.mpr hd
  simp only [up_out]
  rw [List.drop_append_of_le_length hdl, List.reverse_append,
    dropLast_reverse_eq]
  rfl

theorem down_out_concat (d : List Nat) (z : Nat) :
    down_out (d ++ [z]) = d.reverse := by
  simp only [down_out, List.dropLast_concat]

theorem upPairs_concat (d : List Nat) (z : Nat) (hd : d ≠ []) :
    upPairs (d ++ [z])
      = List.zip (List.zipWith (· + ·) d.reverse (z :: d.reverse.dropLast))
          d.reverse := by
  simp only [upPairs, deconv_in, down_out_concat, up_out_concat d z hd]

/-- The channel widths recorded by the pooled skip buffers are the
down-path widths. -/
theorem poolSkips_map_c (l : List Nat) :
    ∀ (n h w : Nat), (poolSkips n h w l).map TShape.c = l := by
  induction l with
  | nil => intro n h w; rfl
  | cons c t ih =>
    intro n h w
    simp only [poolSkips, List.map_cons, ih]

/-- Every pooled skip buffer keeps the batch extent and, when the input
extents dominate `2^(number of stages)`, positive spatial extents. -/
theorem poolSkips_mem (l : List Nat) :
    ∀ (n h w : Nat), 2 ^ l.length ≤ h → 2 ^ l.length ≤ w →
      ∀ t ∈ poolSkips n h w l, t.n = n ∧ 1 ≤ t.h ∧ 1 ≤ t.w := by
  induction l with
  | nil => intro n h w hh hw t ht; exact absurd ht (List.not_mem_nil t)
  | cons c r ih =>
    intro n h w hh hw t ht
    have hh2 : 2 ≤ h := le_trans (by
      have : (2 : Nat) ^ 1 ≤ 2 ^ (c :: r).length :=
        Nat.pow_le_pow_right (by omega) (by simp)
      simpa using this) hh
    have hw2 : 2 ≤ w := le_trans (by
      have : (2 : Nat) ^ 1 ≤ 2 ^ (c :: r).length :=
        Nat.pow_le_pow_right (by omega) (by simp)
      simpa using this) hw
    rcases List.mem_cons.mp ht with rfl | ht'
    · refine ⟨rfl, ?_, ?_⟩
      · show 1 ≤ h
        omega
      · show 1 ≤ w
        omega
    · have hhd : 2 ^ r.length ≤ h / 2 := by
        rw [Nat.le_div_iff_mul_le (by omega)]
        calc 2 ^ r.length * 2 = 2 ^ (r.length + 1) := by rw [Nat.pow_succ]
          _ ≤ h := by simpa using hh
      have hwd : 2 ^ r.length ≤ w / 2 := by
        rw [Nat.le_div_iff_mul_le (by omega)]
        calc 2 ^ r.length * 2 = 2 ^ (r.length + 1) := by rw [Nat.pow_succ]
          _ ≤ w := by simpa using hw
      exact ih n (h / 2) (w / 2) hhd hwd t ht'

/-- The head of the pooled skip list is the first stage's buffer. -/
theorem poolSkips_headD (l : List Nat) (n h w : Nat) (hl : l ≠ [])
    (s : TShape) :
    (poolSkips n h w l).headD s = ⟨n, l.headD 0, h, w⟩ := by
  cases l with
  | nil => exact absurd rfl hl
  | cons c t => rfl

/-- `Autoencoder2D.forward` shapes without pooling: both spatial extents
are preserved end to end and the output channel width is `c0`. -/
theorem aeForwardSh_noPool (d : List Nat) (z nin N H W : Nat) (hd : d ≠ [])
    (hH : 1 ≤ H) (hW : 1 ≤ W) :
    aeForwardSh (d ++ [z]) nin 3 false ⟨N, nin, H, W⟩
      = some ⟨N, d.headD 0, H, W⟩ := by
  have hdown : downLoopSh 3 false (chainPairs nin d) ⟨N, nin, H, W⟩
      = some (d.map (fun c => TShape.mk N c H W), ⟨N, d.getLastD nin, H, W⟩) :=
    downLoopSh_chain_noPool d nin ⟨N, nin, H, W⟩ rfl hH hW
  have hu : convBlockSh (uPair (d ++ [z])).1 (uPair (d ++ [z])).2 3
        ⟨N, d.getLastD nin, H, W⟩ = some ⟨N, z, H, W⟩ := by
    rw [uPair_concat d z hd]
    rw [convBlockSh_three,
      if_pos ⟨getLastD_default_irrel d hd nin 0, hH, hW⟩]
  have hup : upLoopSh 3 false
        (List.zip (List.zipWith (· + ·) d.reverse (z :: d.reverse.dropLast))
          d.reverse)
        (d.reverse.map (fun c => TShape.mk N c H W)) ⟨N, z, H, W⟩
      = some ⟨N, d.reverse.getLastD z, H, W⟩ :=
    upLoopSh_noPool d.reverse z N H W hH hW
  have hrev : (d.map (fun c => TShape.mk N c H W)).reverse
      = d.reverse.map (fun c => TShape.mk N c H W) :=
    (List.map_reverse _ _).symm
  simp only [aeForwardSh, downPairs_concat, hdown, Option.bind_eq_bind,
    Option.some_bind, hu, upPairs_concat d z hd, hrev, hup,
    getLastD_reverse, headD_default_irrel d hd z 0]

/-- `Autoencoder2D.forward` shapes with pooling, when both extents dominate
`2^(number of down stages)`: the up path resamples back, so the output has
the input's spatial extents and channel width `c0`. -/
theorem aeForwardSh_pool (d : List Nat) (z nin N H W : Nat) (hd : d ≠ [])
    (hH : 2 ^ d.length ≤ H) (hW : 2 ^ d.length ≤ W) :
    aeForwardSh (d ++ [z]) nin 3 true ⟨N, nin, H, W⟩
      = some ⟨N, d.headD 0, H, W⟩ := by
  have hH1 : 1 ≤ H / 2 ^ d.length :=
    Nat.one_le_div_iff (Nat.pos_pow_of_pos _ (by omega)) |>.mpr hH
  have hW1 : 1 ≤ W / 2 ^ d.length :=
    Nat.one_le_div_iff (Nat.pos_pow_of_pos _ (by omega)) |>.mpr hW
  have hdown : downLoopSh 3 true (chainPairs nin d) ⟨N, nin, H, W⟩
      = some (poolSkips N H W d,
              ⟨N, d.getLastD nin, H / 2 ^ d.length, W / 2 ^ d.length⟩) :=
    downLoopSh_chain_pool d nin ⟨N, nin, H, W⟩ rfl hH hW
  have hu : convBlockSh (uPair (d ++ [z])).1 (uPair (d ++ [z])).2 3
        ⟨N, d.getLastD nin, H / 2 ^ d.length, W / 2 ^ d.length⟩
      = some ⟨N, z, H / 2 ^ d.length, W / 2 ^ d.length⟩ := by
    rw [uPair_concat d z hd]
    rw [convBlockSh_three,
      if_pos ⟨getLastD_default_irrel d hd nin 0, hH1, hW1⟩]
  have hmem : ∀ t ∈ (poolSkips N H W d).reverse,
      t.n = (TShape.mk N z (H / 2 ^ d.length) (W / 2 ^ d.length)).n
      ∧ 1 ≤ t.h ∧ 1 ≤ t.w := by
    intro t ht
    exact poolSkips_mem d N H W hH hW t (List.mem_reverse.mp ht)
  have hup := upLoopSh_pool (poolSkips N H W d).reverse z
    ⟨N, z, H / 2 ^ d.length, W / 2 ^ d.length⟩ rfl hH1 hW1 hmem
  have hmapc : ((poolSkips N H W d).reverse).map TShape.c = d.reverse := by
    rw [List.map_reverse, poolSkips_map_c]
  rw [hmapc] at hup
  have hlast : ((poolSkips N H W d).reverse).getLastD
        ⟨N, z, H / 2 ^ d.length, W / 2 ^ d.length⟩
      = ⟨N, d.headD 0, H, W⟩ := by
    rw [getLastD_reverse, poolSkips_headD d N H W hd]
  rw [hlast] at hup
  simp only [aeForwardSh, downPairs_concat, hdown, Option.bind_eq_bind,
    Option.some_bind, hu, upPairs_concat d z hd, hup]

/-- Full-model forward shapes without pooling. -/
theorem unetForwardSh_noPool_ok (cf : List Nat) (nin nout N H W : Nat)
    (hL : 2 ≤ cf.length) (hH : 1 ≤ H) (hW : 1 ≤ W) :
    unetForwardSh cf nin nout false ⟨N, nin, H, W⟩
      = some ⟨N, nout, H, W⟩ := by
  have hcf : cf ≠ [] := by
    intro h
    rw [h] at hL
    simp at hL
  obtain ⟨d, z, rfl⟩ : ∃ d z, cf = d ++ [z] :=
    ⟨cf.dropLast, cf.getLast hcf, (List.dropLast_concat_getLast hcf).symm⟩
  have hd : d ≠ [] := by
    intro h
    subst h
    simp at hL
  have hhead : (d ++ [z]).headD 0 = d.headD 0 := by
    cases d with
    | nil => exact absurd rfl hd
    | cons a t => rfl
  have hae := aeForwardSh_noPool d z nin N H W hd hH hW
  have hseg : segSh (d.headD 0) nout ⟨N, d.headD 0, H, W⟩
      = some ⟨N, nout, H, W⟩ := by
    have h1 : convBlockSh (d.headD 0) (d.headD 0) 1 ⟨N, d.headD 0, H, W⟩
        = some ⟨N, d.headD 0, H, W⟩ := by
      rw [convBlockSh_one, if_pos ⟨rfl, hH, hW⟩]
    have h2 : convBlockSh (d.headD 0) nout 1 ⟨N, d.headD 0, H, W⟩
        = some ⟨N, nout, H, W⟩ := by
      rw [convBlockSh_one, if_pos ⟨rfl, hH, hW⟩]
    simp only [segSh, h1, h2, Option.bind_eq_bind, Option.some_bind]
  simp only [unetForwardSh, hae, Option.bind_eq_bind, Option.some_bind,
    hhead, hseg]

/-- Full-model forward shapes with pooling, under the `2^(L-1)` extent
bound. -/
theorem unetForwardSh_pool_ok (cf : List Nat) (nin nout N H W : Nat)
    (hL : 2 ≤ cf.length) (hH : 2 ^ (cf.length - 1) ≤ H)
    (hW : 2 ^ (cf.length - 1) ≤ W) :
    unetForwardSh cf nin nout true ⟨N, nin, H, W⟩
      = some ⟨N, nout, H, W⟩ := by
  have hcf : cf ≠ [] := by
    intro h
    rw [h] at hL
    simp at hL
  obtain ⟨d, z, rfl⟩ : ∃ d z, cf = d ++ [z] :=
    ⟨cf.dropLast, cf.getLast hcf, (List.dropLast_concat_getLast hcf).symm⟩
  have hd : d ≠ [] := by
    intro h
    subst h
    simp at hL
  have hlen : (d ++ [z]).length - 1 = d.length := by simp
  rw [hlen] at hH hW
  have hH1 : 1 ≤ H :=
    le_trans (Nat.one_le_two_pow) hH
  have hW1 : 1 ≤ W :=
    le_trans (Nat.one_le_two_pow) hW
  have hhead : (d ++ [z]).headD 0 = d.headD 0 := by
    cases d with
    | nil => exact absurd rfl hd
    | cons a t => rfl
  have hae := aeForwardSh_pool d z nin N H W hd hH hW
  have hseg : segSh (d.headD 0) nout ⟨N, d.headD 0, H, W⟩
      = some ⟨N, nout, H, W⟩ := by
    have h1 : convBlockSh (d.headD 0) (d.headD 0) 1 ⟨N, d.headD 0, H, W⟩
        = some ⟨N, d.headD 0, H, W⟩ := by
      rw [convBlockSh_one, if_pos ⟨rfl, hH1, hW1⟩]
    have h2 : convBlockSh (d.headD 0) nout 1 ⟨N, d.headD 0, H, W⟩
        = some ⟨N, nout, H, W⟩ := by
      rw [convBlockSh_one, if_pos ⟨rfl, hH1, hW1⟩]
    simp only [segSh, h1, h2, Option.bind_eq_bind, Option.some_bind]
  simp only [unetForwardSh, hae, Option.bind_eq_bind, Option.some_bind,
    hhead, hseg]

/-- Claim C4, amended: for every configuration `[c0,…,c_{L-1}]` with
`L ≥ 2`, the full forward pass on `(N, n_inputs, H, W)` returns
`(N, n_outputs, H, W)`, provided that when pooling is enabled both spatial
extents are at least `2^(L-1)` (so that every `max_pool2d` input is at
least 2); without pooling any positive extents work.  (The unamended
claim fails at `H = W = 1` with pooling, see the counterexample.) -/
theorem unet_forward_preserves_shape (cf : List Nat)
    (nin nout N H W : Nat) (pooling : Bool) (hL : 2 ≤ cf.length)
    (hH : (if pooling then 2 ^ (cf.length - 1) else 1) ≤ H)
    (hW : (if pooling then 2 ^ (cf.length - 1) else 1) ≤ W) :
    unetForwardSh cf nin nout pooling ⟨N, nin, H, W⟩
      = some ⟨N, nout, H, W⟩ := by
  cases pooling with
  | false =>
    simp only [Bool.false_eq_true, if_false] at hH hW
    exact unetForwardSh_noPool_ok cf nin nout N H W hL hH hW
  | true =>
    simp only [if_true] at hH hW
    exact unetForwardSh_pool_ok cf nin nout N H W hL hH hW

/-- Witness for claim C4 at `conv_filters = [8, 16]`, pooling enabled,
batch 1, 4 input channels, 2 output channels, on a 2×2 input. -/
theorem unet_forward_preserves_shape_witness :
    (2 ≤ ([8, 16] : List Nat).length
      ∧ (if true then 2 ^ (([8, 16] : List Nat).length - 1) else 1) ≤ 2
      ∧ (if true then 2 ^ (([8, 16] : List Nat).length - 1) else 1) ≤ 2)
    ∧ unetForwardSh [8, 16] 4 2 true ⟨1, 4, 2, 2⟩ = some ⟨1, 2, 2, 2⟩ :=
  ⟨⟨by decide, by decide, by decide⟩,
   unet_forward_preserves_shape [8, 16] 4 2 1 2 2 true (by decide)
     (by decide) (by decide)⟩

/-- Claim C10: `Unet2D.__init__` passes only `(conv_filters, device,
n_inputs)` to `Autoencoder2D`, so the nested autoencoder keeps the
defaults `pooling = False` and `dropout = 0`; at rate 0 channel dropout is
the identity in every mode; with pooling off no stage changes the spatial
extents (every skip buffer and the final output keep `(H, W)`); and
`dropout_update` propagates the model's dropout scalar into the
autoencoder. -/
theorem unet2D_default_pooling_dropout (cf : List Nat) (nin : Nat) :
    (unet2DInit cf nin).autoencoder.pooling = false
    ∧ (unet2DInit cf nin).autoencoder.dropout = 0
    ∧ (unet2DInit cf nin).autoencoder.kernel_size = 3
    ∧ (∀ (training : Bool) (mask : List Bool) (x : Img),
        dropout2dV (unet2DInit cf nin).autoencoder.dropout training mask x
          = x)
    ∧ (∀ dNew : ℚ,
        (dropout_update (unet2DInit cf nin) dNew).autoencoder.dropout
          = (dropout_update (unet2DInit cf nin) dNew).dropout)
    ∧ (∀ (N H W nout : Nat), 2 ≤ cf.length → 1 ≤ H → 1 ≤ W →
        downLoopSh 3 false (downPairs nin cf) ⟨N, nin, H, W⟩
            = some (cf.dropLast.map (fun c => TShape.mk N c H W),
                    ⟨N, cf.dropLast.getLastD nin, H, W⟩)
        ∧ unetForwardSh cf nin nout false ⟨N, nin, H, W⟩
            = some ⟨N, nout, H, W⟩) := by
  refine ⟨rfl, rfl, rfl, ?_, fun dNew => rfl, ?_⟩
  · intro training mask x
    simp [dropout2dV, unet2DInit, autoencoder2DInit]
  · intro N H W nout hL hH hW
    constructor
    · rw [downPairs_eq_chain]
      exact downLoopSh_chain_noPool cf.dropLast nin ⟨N, nin, H, W⟩ rfl hH hW
    · exact unetForwardSh_noPool_ok cf nin nout N H W hL hH hW

end Trees
